import Mathlib

/-
Verification of the multipart-ETag core of dandi-cli
(src/dandi/core/digests/dandietag.py): the `PartGenerator` partitioning
algorithm and the `DandiETag` digest accumulator.

Modelling conventions:
  * Python arbitrary-precision non-negative integers become `Nat`;
    values that the code may drive negative (part numbers, offsets fed to
    Python list indexing) become `Int`.
  * `md5` is an abstract parameter `H : Bytes → Bytes`; nothing proved here
    depends on md5 internals beyond its digest being 16 bytes.
  * `math.ceil(a / b)` in the source is computed on floats, but for all
    reachable inputs (a ≤ 5 TiB, b = 2^26 or b = 10000) the float division
    is exact enough that the result equals the rational ceiling, embedded
    here as `ceil_div`.
  * Exceptions become explicit `Err` values.  Methods that mutate state
    return `State × Option Err`; every raise in the source happens before
    any mutation of that method, so the returned state on error equals the
    input state, matching CPython semantics.
  * Recursions are written structurally (with explicit fuel bounded by the
    loop's iteration count) so every definition evaluates by `decide`.
-/

namespace DandiTag

/-- Size helpers from the source: `mb`, `gb`, `tb`. -/
def mb (bytes_size : Nat) : Nat := bytes_size * 2 ^ 20

def gb (bytes_size : Nat) : Nat := bytes_size * 2 ^ 30

def tb (bytes_size : Nat) : Nat := bytes_size * 2 ^ 40

/-- `PartGenerator.MAX_PARTS`: S3 allows at most 10000 parts. -/
def MAX_PARTS : Nat := 10000

/-- `PartGenerator.MIN_PART_SIZE`: 5 MiB. -/
def MIN_PART_SIZE : Nat := mb 5

/-- `PartGenerator.MAX_PART_SIZE`: 5 GiB. -/
def MAX_PART_SIZE : Nat := gb 5

/-- Exact rational ceiling division, the value `math.ceil(a / b)` takes in
the source for all reachable inputs. -/
def ceil_div (a b : Nat) : Nat := (a + b - 1) / b

/-- The `Part` named tuple: `number`, `offset`, `size`.  Fields are `Int`
because the code can produce negative part numbers/offsets in principle
(e.g. `__getitem__` on a zero-part plan). -/
structure Part where
  number : Int
  offset : Int
  size : Int
deriving DecidableEq

/-- Error taxonomy, one constructor per raise site of the source. -/
inductive Err where
  /-- `ValueError` in `for_file_size` (file larger than 5 TiB). -/
  | fileTooLarge
  /-- `IndexError` (plan lookup or Python list indexing out of range). -/
  | indexError
  /-- `ValueError` in `as_str` (not all part hashes submitted). -/
  | notAllPartsSubmitted
  /-- `RuntimeError` in `add_digest` (digest submitted more than once). -/
  | digestResubmitted
  /-- `RuntimeError` in `add_next_digest` / `update` (already complete). -/
  | alreadyComplete
  /-- `assert d is not None` in `as_str`. -/
  | assertionFailed
deriving DecidableEq

deriving instance DecidableEq for Except

/-- The `PartGenerator` dataclass: `part_qty`, `initial_part_size`,
`final_part_size`. -/
structure PartGenerator where
  part_qty : Nat
  initial_part_size : Nat
  final_part_size : Nat
deriving DecidableEq

/-- The candidate part size after the first reassignment in
`for_file_size`: start at 64 MiB, recompute as `ceil(file_size / 10000)`
if 64 MiB parts would reach the part limit. -/
def part_size_step1 (file_size : Nat) : Nat :=
  if ceil_div file_size (mb 64) ≥ MAX_PARTS
  then ceil_div file_size MAX_PARTS else mb 64

/-- The candidate part size after the clamp to `MIN_PART_SIZE`. -/
def part_size_step2 (file_size : Nat) : Nat :=
  if part_size_step1 file_size < MIN_PART_SIZE
  then MIN_PART_SIZE else part_size_step1 file_size

/-- The candidate part size after the final clamp to `MAX_PART_SIZE`:
the value of `part_size` at the `divmod` line of `for_file_size`. -/
def adjusted_part_size (file_size : Nat) : Nat :=
  if part_size_step2 file_size > MAX_PART_SIZE
  then MAX_PART_SIZE else part_size_step2 file_size

/-- `part_qty` after the remainder branch of `for_file_size`:
the quotient of `divmod`, incremented when the remainder is nonzero. -/
def plan_qty (s : Nat) : Nat :=
  if s % adjusted_part_size s = 0
  then s / adjusted_part_size s else s / adjusted_part_size s + 1

/-- `final_part_size` after the remainder branch of `for_file_size`:
the remainder of `divmod`, replaced by the full part size when zero. -/
def plan_final (s : Nat) : Nat :=
  if s % adjusted_part_size s = 0 then adjusted_part_size s else s % adjusted_part_size s

/-- The plan built by the non-raising tail of `for_file_size`, including
the single-part collapse (`if part_qty == 1: part_size = final_part_size`). -/
def plan_for (s : Nat) : PartGenerator :=
  ⟨plan_qty s, if plan_qty s = 1 then plan_final s else adjusted_part_size s,
    plan_final s⟩

/-- `PartGenerator.for_file_size`: reject sizes above 5 TiB, otherwise
derive the plan. -/
def PartGenerator.for_file_size (file_size : Nat) : Except Err PartGenerator :=
  if file_size > tb 5 then .error .fileTooLarge
  else .ok (plan_for file_size)

/-- `PartGenerator.__getitem__`: 1-based indexed lookup with an
`IndexError` outside `[1, part_qty]`. -/
def PartGenerator.getitem (g : PartGenerator) (index : Int) : Except Err Part :=
  if 1 ≤ index ∧ index < g.part_qty then
    .ok ⟨index, g.initial_part_size * (index - 1), g.initial_part_size⟩
  else if index = g.part_qty then
    .ok ⟨index, g.initial_part_size * (index - 1), g.final_part_size⟩
  else .error .indexError

/-- The loop of `PartGenerator.__iter__`, structurally recursive on the
number of remaining full-size parts (`range(1, part_qty)` runs
`part_qty - 1` times). -/
def PartGenerator.iterLoop (g : PartGenerator) : Nat → Nat → Int → List Part
  | 0, _, offset => [⟨(g.part_qty : Int), offset, (g.final_part_size : Int)⟩]
  | k + 1, number, offset =>
      ⟨(number : Int), offset, (g.initial_part_size : Int)⟩ ::
        g.iterLoop k (number + 1) (offset + g.initial_part_size)

/-- `PartGenerator.__iter__` as the list of yielded parts. -/
def PartGenerator.iterParts (g : PartGenerator) : List Part :=
  g.iterLoop (g.part_qty - 1) 1 0

/-- Sum of the sizes of a list of parts. -/
def sumSizes (l : List Part) : Int :=
  l.foldr (fun p acc => p.size + acc) 0

/-- `partsChainB off l endOff`: the parts in `l` tile the byte range
`[off, endOff)` contiguously, in order, without gaps or overlaps. -/
def partsChainB (off : Int) : List Part → Int → Bool
  | [], endOff => off == endOff
  | p :: rest, endOff => (p.offset == off) && partsChainB (off + p.size) rest endOff

/- ------------------------------------------------------------------ -/
/- Arithmetic facts about `ceil_div` and the adjusted part size.       -/
/- ------------------------------------------------------------------ -/

theorem ceil_div_le_iff (a b c : Nat) (hb : 0 < b) :
    ceil_div a b ≤ c ↔ a ≤ c * b := by
  unfold ceil_div
  rw [show c = (c + 1) - 1 by omega] at *
  constructor
  · intro h
    have h2 : a + b - 1 < (c + 1 - 1 + 1) * b := by
      rw [Nat.div_le_iff_le_mul_add_pred hb] at h
      have : (c + 1 - 1 + 1) * b = b * (c + 1 - 1) + b := by ring
      omega
    have h3 : (c + 1 - 1 + 1) * b = (c + 1 - 1) * b + b := by ring
    omega
  · intro h
    rw [Nat.div_le_iff_le_mul_add_pred hb]
    have h3 : b * (c + 1 - 1) = (c + 1 - 1) * b := by ring
    omega

theorem le_mul_ceil_div (a b : Nat) (hb : 0 < b) : a ≤ ceil_div a b * b :=
  (ceil_div_le_iff a b (ceil_div a b) hb).mp le_rfl

theorem ceil_div_mono_left (a a' b : Nat) (h : a ≤ a') :
    ceil_div a b ≤ ceil_div a' b :=
  Nat.div_le_div_right (by omega)

theorem min_part_size_pos : 0 < MIN_PART_SIZE := by decide

theorem step2_ge_min (s : Nat) : MIN_PART_SIZE ≤ part_size_step2 s := by
  unfold part_size_step2
  split
  · exact le_rfl
  · omega

theorem adjusted_part_size_ge_min (s : Nat) :
    MIN_PART_SIZE ≤ adjusted_part_size s := by
  have h := step2_ge_min s
  unfold adjusted_part_size
  split
  · decide
  · exact h

theorem adjusted_part_size_pos (s : Nat) : 0 < adjusted_part_size s :=
  lt_of_lt_of_le min_part_size_pos (adjusted_part_size_ge_min s)

theorem adjusted_part_size_big (s : Nat) (hs : s ≤ tb 5) :
    s ≤ MAX_PARTS * adjusted_part_size s := by
  by_cases hbr : ceil_div s (mb 64) ≥ MAX_PARTS
  · -- recomputed branch: the part size stays at least `ceil_div s 10000`
    have hkey : s ≤ MAX_PARTS * ceil_div s MAX_PARTS := by
      have h := le_mul_ceil_div s MAX_PARTS (by decide)
      have h2 : ceil_div s MAX_PARTS * MAX_PARTS = MAX_PARTS * ceil_div s MAX_PARTS := by
        ring
      omega
    have hsmall : ceil_div s MAX_PARTS ≤ MAX_PART_SIZE := by
      have h1 : ceil_div s MAX_PARTS ≤ ceil_div (tb 5) MAX_PARTS :=
        ceil_div_mono_left s (tb 5) MAX_PARTS hs
      have h2 : ceil_div (tb 5) MAX_PARTS ≤ MAX_PART_SIZE := by decide
      omega
    have h1 : part_size_step1 s = ceil_div s MAX_PARTS := by
      unfold part_size_step1
      rw [if_pos hbr]
    have h2 : ceil_div s MAX_PARTS ≤ part_size_step2 s := by
      unfold part_size_step2
      rw [h1]
      split
      · omega
      · exact le_rfl
    have h3 : part_size_step2 s ≤ adjusted_part_size s ∨
        adjusted_part_size s = MAX_PART_SIZE := by
      unfold adjusted_part_size
      split
      · right
        rfl
      · left
        exact le_rfl
    have hmono : ∀ x y : Nat, x ≤ y → MAX_PARTS * x ≤ MAX_PARTS * y :=
      fun x y h => Nat.mul_le_mul_left _ h
    rcases h3 with h3 | h3
    · have := hmono _ _ (le_trans h2 h3)
      omega
    · rw [h3]
      have := hmono _ _ hsmall
      omega
  · -- 64 MiB branch: fewer than 10000 parts of 64 MiB are needed
    have h1 : part_size_step1 s = mb 64 := by
      unfold part_size_step1
      rw [if_neg hbr]
    have h2 : part_size_step2 s = mb 64 := by
      unfold part_size_step2
      rw [h1]
      rw [if_neg (by decide)]
    have h3 : adjusted_part_size s = mb 64 := by
      unfold adjusted_part_size
      rw [h2]
      rw [if_neg (by decide)]
    rw [h3]
    have h4 : ceil_div s (mb 64) ≤ MAX_PARTS - 1 := by omega
    have h5 : s ≤ (MAX_PARTS - 1) * mb 64 :=
      (ceil_div_le_iff s (mb 64) (MAX_PARTS - 1) (by decide)).mp h4
    have h6 : (MAX_PARTS - 1) * mb 64 ≤ MAX_PARTS * mb 64 :=
      Nat.mul_le_mul_right _ (by omega)
    omega

/- ------------------------------------------------------------------ -/
/- Facts about the generated plan.                                     -/
/- ------------------------------------------------------------------ -/

theorem plan_for_qty_le (s : Nat) (hs : s ≤ tb 5) :
    (plan_for s).part_qty ≤ MAX_PARTS := by
  show plan_qty s ≤ MAX_PARTS
  have hpos : 0 < adjusted_part_size s := adjusted_part_size_pos s
  have hbig : s ≤ MAX_PARTS * adjusted_part_size s := adjusted_part_size_big s hs
  have hdm : adjusted_part_size s * (s / adjusted_part_size s)
      + s % adjusted_part_size s = s := Nat.div_add_mod s (adjusted_part_size s)
  have hlt : s % adjusted_part_size s < adjusted_part_size s := Nat.mod_lt _ hpos
  unfold plan_qty
  generalize hA : adjusted_part_size s = A at *
  generalize hq : s / A = q at *
  generalize hr : s % A = r at *
  by_cases hr0 : r = 0
  · rw [if_pos hr0]
    have h2 : q * A ≤ MAX_PARTS * A := by
      have hc : A * q = q * A := by ring
      omega
    exact Nat.le_of_mul_le_mul_right h2 hpos
  · rw [if_neg hr0]
    have h3 : q * A < MAX_PARTS * A := by
      have hc : A * q = q * A := by ring
      omega
    have := Nat.lt_of_mul_lt_mul_right h3
    omega

theorem plan_for_qty_pos (s : Nat) (h1 : 1 ≤ s) :
    1 ≤ (plan_for s).part_qty := by
  show 1 ≤ plan_qty s
  have hpos : 0 < adjusted_part_size s := adjusted_part_size_pos s
  have hdm : adjusted_part_size s * (s / adjusted_part_size s)
      + s % adjusted_part_size s = s := Nat.div_add_mod s (adjusted_part_size s)
  unfold plan_qty
  generalize hA : adjusted_part_size s = A at *
  generalize hq : s / A = q at *
  generalize hr : s % A = r at *
  by_cases hr0 : r = 0
  · rw [if_pos hr0]
    rcases Nat.eq_zero_or_pos q with h0 | h0
    · rw [h0, Nat.mul_zero] at hdm
      omega
    · exact h0
  · rw [if_neg hr0]
    omega

theorem plan_for_final_pos (s : Nat) : 0 < (plan_for s).final_part_size := by
  show 0 < plan_final s
  have hpos : 0 < adjusted_part_size s := adjusted_part_size_pos s
  unfold plan_final
  by_cases hr : s % adjusted_part_size s = 0
  · rw [if_pos hr]
    exact hpos
  · rw [if_neg hr]
    omega

theorem plan_for_initial_pos (s : Nat) : 0 < (plan_for s).initial_part_size := by
  have hfin := plan_for_final_pos s
  have hpos : 0 < adjusted_part_size s := adjusted_part_size_pos s
  show 0 < (if plan_qty s = 1 then plan_final s else adjusted_part_size s)
  split
  · exact hfin
  · exact hpos

theorem plan_for_sum (s : Nat) (h1 : 1 ≤ (plan_for s).part_qty) :
    ((plan_for s).part_qty - 1) * (plan_for s).initial_part_size
      + (plan_for s).final_part_size = s := by
  have hpos : 0 < adjusted_part_size s := adjusted_part_size_pos s
  have hdm : adjusted_part_size s * (s / adjusted_part_size s)
      + s % adjusted_part_size s = s := Nat.div_add_mod s (adjusted_part_size s)
  show (plan_qty s - 1) * (if plan_qty s = 1 then plan_final s else adjusted_part_size s)
      + plan_final s = s
  have h1' : 1 ≤ plan_qty s := h1
  unfold plan_qty at h1' ⊢
  unfold plan_final
  generalize hA : adjusted_part_size s = A at *
  generalize hq : s / A = q at *
  generalize hr : s % A = r at *
  by_cases hr0 : r = 0
  · simp only [if_pos hr0] at h1' ⊢
    -- count q, final part full: sum = (q-1)*A + A = q*A = s
    by_cases hq1 : q = 1
    · subst hq1
      simp only [if_pos rfl]
      omega
    · rw [if_neg hq1]
      have hqq : q - 1 + 1 = q := by omega
      calc (q - 1) * A + A = ((q - 1) + 1) * A := by ring
        _ = q * A := by rw [hqq]
        _ = s := by
              have hc : A * q = q * A := by ring
              omega
  · simp only [if_neg hr0] at h1' ⊢
    by_cases hq1 : q + 1 = 1
    · -- single short part: the quotient is 0, so s equals the remainder
      have h0 : q = 0 := by omega
      subst h0
      simp only [if_pos rfl]
      omega
    · rw [if_neg hq1]
      have hqq : q + 1 - 1 = q := by omega
      rw [hqq]
      have hc : q * A = A * q := by ring
      omega

/- ------------------------------------------------------------------ -/
/- Facts about the iteration of a plan.                                -/
/- ------------------------------------------------------------------ -/

theorem iterLoop_chain (g : PartGenerator) :
    ∀ (k n : Nat) (off : Int),
      partsChainB off (g.iterLoop k n off)
        (off + (g.initial_part_size : Int) * (k : Int) + (g.final_part_size : Int))
        = true := by
  intro k
  induction k with
  | zero =>
    intro n off
    simp [PartGenerator.iterLoop, partsChainB]
  | succ k ih =>
    intro n off
    simp only [PartGenerator.iterLoop, partsChainB, Bool.and_eq_true, beq_iff_eq]
    constructor
    · trivial
    · have harith : off + (g.initial_part_size : Int) * ((k + 1 : Nat) : Int)
          + (g.final_part_size : Int)
          = (off + (g.initial_part_size : Int))
            + (g.initial_part_size : Int) * (k : Int) + (g.final_part_size : Int) := by
        push_cast
        ring
      rw [harith]
      exact ih (n + 1) (off + (g.initial_part_size : Int))

theorem iterLoop_sum (g : PartGenerator) :
    ∀ (k n : Nat) (off : Int),
      sumSizes (g.iterLoop k n off)
        = (g.initial_part_size : Int) * (k : Int) + (g.final_part_size : Int) := by
  intro k
  induction k with
  | zero =>
    intro n off
    simp [PartGenerator.iterLoop, sumSizes]
  | succ k ih =>
    intro n off
    simp only [PartGenerator.iterLoop, sumSizes, List.foldr_cons]
    have := ih (n + 1) (off + (g.initial_part_size : Int))
    simp only [sumSizes] at this
    rw [this]
    push_cast
    ring

theorem iterLoop_numbers (g : PartGenerator) :
    ∀ (k n : Nat) (off : Int),
      (g.iterLoop k n off).map Part.number
        = (List.range' n k).map Int.ofNat ++ [(g.part_qty : Int)] := by
  intro k
  induction k with
  | zero =>
    intro n off
    simp [PartGenerator.iterLoop, List.range']
  | succ k ih =>
    intro n off
    simp only [PartGenerator.iterLoop, List.map_cons]
    rw [ih (n + 1) (off + (g.initial_part_size : Int))]
    rw [List.range'_succ, List.map_cons, List.cons_append]
    rfl

theorem iterLoop_sizes (g : PartGenerator) :
    ∀ (k n : Nat) (off : Int) (p : Part), p ∈ g.iterLoop k n off →
      p.size = (g.initial_part_size : Int) ∨ p.size = (g.final_part_size : Int) := by
  intro k
  induction k with
  | zero =>
    intro n off p hp
    simp only [PartGenerator.iterLoop, List.mem_singleton] at hp
    subst hp
    right
    rfl
  | succ k ih =>
    intro n off p hp
    simp only [PartGenerator.iterLoop, List.mem_cons] at hp
    rcases hp with hp | hp
    · subst hp
      left
      rfl
    · exact ih (n + 1) _ p hp

theorem iterLoop_getD (g : PartGenerator) :
    ∀ (k n : Nat) (off : Int) (j : Nat), j ≤ k →
      (g.iterLoop k n off).getD j ⟨0, 0, 0⟩
        = if j < k
          then ⟨((n + j : Nat) : Int), off + (g.initial_part_size : Int) * (j : Int),
                (g.initial_part_size : Int)⟩
          else ⟨(g.part_qty : Int), off + (g.initial_part_size : Int) * (j : Int),
                (g.final_part_size : Int)⟩ := by
  intro k
  induction k with
  | zero =>
    intro n off j hj
    have hj0 : j = 0 := by omega
    subst hj0
    simp [PartGenerator.iterLoop, List.getD]
  | succ k ih =>
    intro n off j hj
    cases j with
    | zero =>
      simp [PartGenerator.iterLoop, List.getD]
    | succ j =>
      have hj' : j ≤ k := by omega
      simp only [PartGenerator.iterLoop]
      have hstep : (g.iterLoop k (n + 1) (off + (g.initial_part_size : Int))).getD j ⟨0, 0, 0⟩
          = if j < k
            then ⟨((n + 1 + j : Nat) : Int),
                  (off + (g.initial_part_size : Int)) + (g.initial_part_size : Int) * (j : Int),
                  (g.initial_part_size : Int)⟩
            else ⟨(g.part_qty : Int),
                  (off + (g.initial_part_size : Int)) + (g.initial_part_size : Int) * (j : Int),
                  (g.final_part_size : Int)⟩ := ih (n + 1) _ j hj'
      have hoff : (off + (g.initial_part_size : Int)) + (g.initial_part_size : Int) * (j : Int)
          = off + (g.initial_part_size : Int) * ((j + 1 : Nat) : Int) := by
        push_cast
        ring
      have hnum : (n + 1 + j : Nat) = (n + (j + 1) : Nat) := by omega
      rw [List.getD_cons_succ, hstep, hoff, hnum]
      by_cases hlt : j < k
      · rw [if_pos hlt, if_pos (by omega)]
      · rw [if_neg hlt, if_neg (by omega)]

theorem range'_append_last : ∀ (k n : Nat),
    List.range' n (k + 1) = List.range' n k ++ [n + k] := by
  intro k
  induction k with
  | zero =>
    intro n
    rfl
  | succ k ih =>
    intro n
    rw [List.range'_succ, ih (n + 1), List.range'_succ]
    simp [List.cons_append]
    omega

theorem for_file_size_ok (s : Nat) (h5 : s ≤ tb 5) :
    PartGenerator.for_file_size s = .ok (plan_for s) := by
  unfold PartGenerator.for_file_size
  rw [if_neg (by omega)]

/-- Claim C6: `PartGenerator.for_file_size` raises the validation error exactly
for file sizes strictly greater than 5 TiB (so in particular for
5 TiB + 1), producing no plan in that case, and raises nothing for sizes
of at most 5 TiB. -/
theorem C6_validation_boundary (s : Nat) :
    PartGenerator.for_file_size s
      = if tb 5 < s then .error Err.fileTooLarge else .ok (plan_for s) := rfl

/-- Claim C7, counterexample: the claim asserts that for file size 0 the
candidate part size is clamped to 5 MiB and the final size equals that
5 MiB part size; in fact the candidate stays 64 MiB (it is already inside
the clamp interval), so the plan's `final_part_size` is 64 MiB, not 5 MiB. -/
theorem C7_counterexample :
    PartGenerator.for_file_size 0 = .ok ⟨0, mb 64, mb 64⟩ ∧ mb 64 ≠ mb 5 := by
  constructor
  · decide
  · decide

/-- Claim C7 (amended): for file size 0 the candidate part size stays 64 MiB
(the 10000-part recomputation does not trigger and neither clamp fires),
`divmod(0, 64 MiB)` yields quotient 0 and remainder 0, and the
remainder-is-zero branch produces a plan whose `final_part_size` is the
64 MiB part size while `part_qty` is 0 — a zero-part plan with a nonzero
final size, not corrected by the single-part collapse since the count is
not 1. -/
theorem C7_zero_size_plan :
    PartGenerator.for_file_size 0 = .ok ⟨0, mb 64, mb 64⟩ ∧
    adjusted_part_size 0 = mb 64 ∧
    ¬ ceil_div 0 (mb 64) ≥ MAX_PARTS ∧
    ¬ mb 64 < MIN_PART_SIZE ∧ ¬ mb 64 > MAX_PART_SIZE ∧
    0 / mb 64 = 0 ∧ 0 % mb 64 = 0 ∧
    (plan_for 0).part_qty = 0 ∧ (plan_for 0).final_part_size = mb 64 ∧
    (plan_for 0).part_qty ≠ 1 := by
  refine ⟨by decide, by decide, by decide, by decide, by decide, by decide,
    by decide, by decide, by decide, by decide⟩

/-- Claim C1, counterexample: the claim quantifies over all 0 ≤ s ≤ 5 TiB, but
at s = 0 the generated plan has `part_qty = 0` (outside `[1, 10000]`) and
sequential iteration still yields one 64 MiB part, so the sizes sum to
64 MiB, not 0. -/
theorem C1_counterexample :
    PartGenerator.for_file_size 0 = .ok ⟨0, mb 64, mb 64⟩ ∧
    ¬ 1 ≤ (0 : Nat) ∧
    sumSizes (PartGenerator.iterParts ⟨0, mb 64, mb 64⟩) ≠ (0 : Int) := by
  refine ⟨by decide, by decide, by decide⟩

/-- Claim C1 (amended): for every file size s with 1 ≤ s ≤ 5 TiB, the plan
produced by `for_file_size` has part sizes summing exactly to s, a part
count within [1, 10000], and sequential iteration yields parts whose
offset/size pairs tile [0, s) gap-free and without overlap, with positive
sizes and ascending part numbers 1, 2, ..., part_qty. -/
theorem C1_partition_plan (s : Nat) (h1 : 1 ≤ s) (h5 : s ≤ tb 5) :
    ∃ g, PartGenerator.for_file_size s = .ok g ∧
      1 ≤ g.part_qty ∧ g.part_qty ≤ MAX_PARTS ∧
      sumSizes g.iterParts = (s : Int) ∧
      partsChainB 0 g.iterParts (s : Int) = true ∧
      (∀ p ∈ g.iterParts, 0 < p.size) ∧
      g.iterParts.map Part.number = (List.range' 1 g.part_qty).map Int.ofNat := by
  refine ⟨plan_for s, for_file_size_ok s h5, plan_for_qty_pos s h1,
    plan_for_qty_le s h5, ?_, ?_, ?_, ?_⟩
  case _ =>
    -- sizes sum to s
    have hsum := plan_for_sum s (plan_for_qty_pos s h1)
    have hcast := congrArg (fun x : Nat => (x : Int)) hsum
    push_cast at hcast
    unfold PartGenerator.iterParts
    rw [iterLoop_sum]
    linarith
  case _ =>
    -- gap-free tiling of [0, s)
    have hsum := plan_for_sum s (plan_for_qty_pos s h1)
    have hcast := congrArg (fun x : Nat => (x : Int)) hsum
    push_cast at hcast
    unfold PartGenerator.iterParts
    have hchain := iterLoop_chain (plan_for s) ((plan_for s).part_qty - 1) 1 0
    have hend : (0 : Int) + ((plan_for s).initial_part_size : Int)
        * (((plan_for s).part_qty - 1 : Nat) : Int)
        + ((plan_for s).final_part_size : Int) = (s : Int) := by linarith
    rw [hend] at hchain
    exact hchain
  case _ =>
    -- all part sizes are positive
    intro p hp
    unfold PartGenerator.iterParts at hp
    have := iterLoop_sizes (plan_for s) ((plan_for s).part_qty - 1) 1 0 p hp
    have hi := plan_for_initial_pos s
    have hf := plan_for_final_pos s
    rcases this with h | h
    · rw [h]
      exact_mod_cast hi
    · rw [h]
      exact_mod_cast hf
  case _ =>
    -- part numbers ascend 1, 2, ..., part_qty
    have hq := plan_for_qty_pos s h1
    unfold PartGenerator.iterParts
    rw [iterLoop_numbers]
    conv_rhs => rw [show (plan_for s).part_qty = ((plan_for s).part_qty - 1) + 1 by omega]
    rw [range'_append_last, List.map_append]
    have h2 : 1 + ((plan_for s).part_qty - 1) = (plan_for s).part_qty := by omega
    rw [h2]
    rfl

/-- Witness for C1 (amended) at s = 1. -/
theorem C1_partition_plan_witness :
    1 ≤ 1 ∧ 1 ≤ tb 5 ∧
    (∃ g, PartGenerator.for_file_size 1 = .ok g ∧
      1 ≤ g.part_qty ∧ g.part_qty ≤ MAX_PARTS ∧
      sumSizes g.iterParts = (1 : Int) ∧
      partsChainB 0 g.iterParts (1 : Int) = true ∧
      (∀ p ∈ g.iterParts, 0 < p.size) ∧
      g.iterParts.map Part.number = (List.range' 1 g.part_qty).map Int.ofNat) :=
  ⟨by decide, by decide, C1_partition_plan 1 (by decide) (by decide)⟩

/-- Claim C8: for every plan generated from a supported file size and every
1-based index i in [1, part_qty], indexed lookup returns exactly the i-th
part of sequential iteration. -/
theorem C8_getitem_matches_iter (s : Nat) (g : PartGenerator)
    (_hg : PartGenerator.for_file_size s = .ok g) (i : Nat) (h1 : 1 ≤ i)
    (hi : i ≤ g.part_qty) :
    g.getitem (i : Int) = .ok (g.iterParts.getD (i - 1) ⟨0, 0, 0⟩) := by
  unfold PartGenerator.iterParts
  rw [iterLoop_getD g (g.part_qty - 1) 1 0 (i - 1) (by omega)]
  unfold PartGenerator.getitem
  have hcast : ((i - 1 : Nat) : Int) = (i : Int) - 1 := by omega
  by_cases hlt : i < g.part_qty
  · rw [if_pos ⟨by exact_mod_cast h1, by exact_mod_cast hlt⟩]
    rw [if_pos (by omega)]
    simp only [Except.ok.injEq, Part.mk.injEq]
    refine ⟨by omega, ?_, trivial⟩
    rw [hcast]
    ring
  · have heq : i = g.part_qty := by omega
    rw [if_neg ?side, if_pos (by exact_mod_cast heq)]
    case side =>
      intro hcon
      exact hlt (by exact_mod_cast hcon.2)
    rw [if_neg (by omega)]
    simp only [Except.ok.injEq, Part.mk.injEq]
    refine ⟨by exact_mod_cast heq, ?_, trivial⟩
    rw [hcast]
    ring

/-- Witness for C8 at s = 1, i = 1. -/
theorem C8_getitem_matches_iter_witness :
    PartGenerator.for_file_size 1 = .ok ⟨1, 1, 1⟩ ∧ 1 ≤ 1 ∧ 1 ≤ (1 : Nat) ∧
    PartGenerator.getitem ⟨1, 1, 1⟩ (1 : Int)
      = .ok ((PartGenerator.iterParts ⟨1, 1, 1⟩).getD 0 ⟨0, 0, 0⟩) :=
  ⟨by decide, le_rfl, le_rfl,
    C8_getitem_matches_iter 1 ⟨1, 1, 1⟩ (by decide) 1 le_rfl (by decide)⟩

/- ------------------------------------------------------------------ -/
/- The DandiETag accumulator.                                          -/
/- ------------------------------------------------------------------ -/

/-- Raw digests are byte strings, modelled as lists of naturals. -/
abbrev Bytes := List Nat

/-- Python list-indexing semantics: an index `i` into a list of length
`n` resolves to `i` when `0 ≤ i < n`, to `n + i` when `-n ≤ i < 0`, and
raises `IndexError` otherwise. -/
def pyIndex (n : Nat) (i : Int) : Option Nat :=
  if 0 ≤ i ∧ i < (n : Int) then some i.toNat
  else if -(n : Int) ≤ i ∧ i < 0 then some (n - (-i).toNat)
  else none

/-- The `DandiETag` state: the plan, the per-part digest slots
(`_md5_digests`), and the cursor `_next_index`. -/
structure DandiETag where
  part_gen : PartGenerator
  md5_digests : List (Option Bytes)
  next_index : Nat
deriving DecidableEq

/-- `DandiETag.__init__`: build the plan for the file size and allocate
`len(plan)` empty slots.  A `ValueError` from `for_file_size` propagates. -/
def DandiETag.init (file_size : Nat) : Except Err DandiETag :=
  match PartGenerator.for_file_size file_size with
  | .error e => .error e
  | .ok g => .ok ⟨g, List.replicate g.part_qty none, 0⟩

/-- `DandiETag.part_qty` (`len(self._part_gen)`). -/
def DandiETag.part_qty (st : DandiETag) : Nat := st.part_gen.part_qty

/-- `DandiETag.complete`: `self._next_index == self.part_qty`. -/
def DandiETag.complete (st : DandiETag) : Bool :=
  st.next_index == st.part_qty

/-- The `while` loop of `DandiETag._update_index`, advancing the cursor
while the slot under it is filled.  The loop body runs at most
`qty - i` times (each iteration requires `i < qty`), so that fuel makes
the recursion structural. -/
def update_index_go (digests : List (Option Bytes)) (qty : Nat) : Nat → Nat → Nat
  | 0, i => i
  | fuel + 1, i =>
      if i < qty ∧ (digests.getD i none).isSome
      then update_index_go digests qty fuel (i + 1) else i

/-- `DandiETag._update_index`. -/
def DandiETag.update_index (st : DandiETag) : DandiETag :=
  { st with
    next_index :=
      update_index_go st.md5_digests st.part_qty (st.part_qty - st.next_index)
        st.next_index }

/-- `DandiETag.add_digest`: store a digest in the slot for
`p.number - 1` (with Python list-index semantics), rejecting an already
filled slot, then advance the cursor. -/
def DandiETag.add_digest (st : DandiETag) (p : Part) (part_digest : Bytes) :
    DandiETag × Option Err :=
  match pyIndex st.md5_digests.length (p.number - 1) with
  | none => (st, some .indexError)
  | some i =>
      if (st.md5_digests.getD i none).isSome then (st, some .digestResubmitted)
      else
        (DandiETag.update_index
          { st with md5_digests := st.md5_digests.set i (some part_digest) }, none)

/-- `DandiETag.add_next_digest`: store a digest in the slot under the
cursor, rejecting the call when already complete. -/
def DandiETag.add_next_digest (st : DandiETag) (part_digest : Bytes) :
    DandiETag × Option Err :=
  if st.complete then (st, some .alreadyComplete)
  else
    (DandiETag.update_index
      { st with md5_digests := st.md5_digests.set st.next_index (some part_digest) },
     none)

/-- `DandiETag.update`: hash the block with `H` (the md5 parameter) and
submit it as the next digest. -/
def DandiETag.update (st : DandiETag) (H : Bytes → Bytes) (block : Bytes) :
    DandiETag × Option Err :=
  if st.complete then (st, some .alreadyComplete)
  else st.add_next_digest (H block)

/-- Concatenation of the filled digest slots in slot order (the `blob`
accumulated by `as_str`). -/
def blobOf (digests : List (Option Bytes)) : Bytes :=
  digests.foldl (fun acc d => acc ++ d.getD []) []

/-- One lowercase hexadecimal digit. -/
def hexChar (n : Nat) : Char :=
  Char.ofNat (if n < 10 then 48 + n else 87 + n)

/-- Lowercase hexadecimal rendering of a byte string, two digits per
byte (`hashlib.md5(...).hexdigest()`). -/
def hexChars (bs : Bytes) : List Char :=
  bs.foldr (fun b acc => hexChar (b / 16) :: hexChar (b % 16) :: acc) []

/-- Decimal digits of a natural number, most significant first.  The
fuel dominates the digit count (`n < fuel` suffices). -/
def natDigitsGo : Nat → Nat → List Char
  | 0, _ => []
  | fuel + 1, n =>
      if n < 10 then [Char.ofNat (48 + n)]
      else natDigitsGo fuel (n / 10) ++ [Char.ofNat (48 + n % 10)]

/-- Decimal rendering of a natural number (Python `f"{n}"`). -/
def natDigits (n : Nat) : List Char := natDigitsGo (n + 1) n

/-- `DandiETag.as_str`: fail unless complete, then concatenate the
digests in slot (= ascending part-number) order, hash the blob with the
combining hash and render `f"{parts_digest}-{len(self._md5_digests)}"`.
The `assert d is not None` of the source is the `assertionFailed` case. -/
def DandiETag.as_str (st : DandiETag) (H : Bytes → Bytes) : Except Err String :=
  if st.complete then
    if st.md5_digests.any (fun d => d.isNone) then .error .assertionFailed
    else .ok (String.mk
      (hexChars (H (blobOf st.md5_digests)) ++ '-' :: natDigits st.md5_digests.length))
  else .error .notAllPartsSubmitted

/-- Length of the contiguously filled prefix of the digest slots. -/
def leadingFilled : List (Option Bytes) → Nat
  | [] => 0
  | none :: _ => 0
  | some _ :: rest => leadingFilled rest + 1

/-- Accumulator states reachable from construction by any sequence of
`add_digest` / `add_next_digest` / `update` calls (rejected calls
included: they return the unchanged state). -/
inductive Reachable (H : Bytes → Bytes) : DandiETag → Prop where
  | base (file_size : Nat) (st : DandiETag) :
      DandiETag.init file_size = .ok st → Reachable H st
  | step_add (st : DandiETag) (p : Part) (d : Bytes) :
      Reachable H st → Reachable H (st.add_digest p d).1
  | step_next (st : DandiETag) (d : Bytes) :
      Reachable H st → Reachable H (st.add_next_digest d).1
  | step_upd (st : DandiETag) (b : Bytes) :
      Reachable H st → Reachable H (st.update H b).1

/- ------------------------------------------------------------------ -/
/- List helpers for slot updates.                                      -/
/- ------------------------------------------------------------------ -/

theorem getD_set_self {α : Type} (l : List α) (i : Nat) (a d : α)
    (h : i < l.length) : (l.set i a).getD i d = a := by
  induction l generalizing i with
  | nil => simp at h
  | cons x xs ih =>
    cases i with
    | zero => rfl
    | succ i =>
      have h' : i < xs.length := by simpa using h
      exact ih i h'

theorem getD_set_ne {α : Type} (l : List α) (i j : Nat) (a d : α)
    (h : i ≠ j) : (l.set i a).getD j d = l.getD j d := by
  induction l generalizing i j with
  | nil => rfl
  | cons x xs ih =>
    cases i with
    | zero =>
      cases j with
      | zero => exact absurd rfl h
      | succ j => rfl
    | succ i =>
      cases j with
      | zero => rfl
      | succ j => exact ih i j (by omega)

/- ------------------------------------------------------------------ -/
/- The contiguously filled prefix.                                     -/
/- ------------------------------------------------------------------ -/

theorem leadingFilled_le_length (l : List (Option Bytes)) :
    leadingFilled l ≤ l.length := by
  induction l with
  | nil => simp [leadingFilled]
  | cons x xs ih =>
    cases x with
    | none => simp [leadingFilled]
    | some b =>
      simp only [leadingFilled, List.length_cons]
      omega

theorem leadingFilled_isSome (l : List (Option Bytes)) :
    ∀ i, i < leadingFilled l → (l.getD i none).isSome = true := by
  induction l with
  | nil =>
    intro i h
    simp [leadingFilled] at h
  | cons x xs ih =>
    cases x with
    | none =>
      intro i h
      simp [leadingFilled] at h
    | some b =>
      intro i h
      cases i with
      | zero => rfl
      | succ i =>
        simp only [leadingFilled] at h
        exact ih i (by omega)

theorem leadingFilled_stop (l : List (Option Bytes))
    (h : leadingFilled l < l.length) :
    l.getD (leadingFilled l) none = none := by
  induction l with
  | nil => simp at h
  | cons x xs ih =>
    cases x with
    | none => rfl
    | some b =>
      simp only [leadingFilled, List.length_cons] at h ⊢
      exact ih (by omega)

theorem le_leadingFilled (l : List (Option Bytes)) :
    ∀ k, k ≤ l.length → (∀ i, i < k → (l.getD i none).isSome = true) →
      k ≤ leadingFilled l := by
  induction l with
  | nil =>
    intro k hk _
    exact hk
  | cons x xs ih =>
    intro k hk hall
    cases k with
    | zero => exact Nat.zero_le _
    | succ k =>
      have hx := hall 0 (by omega)
      cases x with
      | none => simp at hx
      | some b =>
        simp only [leadingFilled]
        have h2 := ih k (by simpa using hk) (fun i hi => hall (i + 1) (by omega))
        omega

theorem leadingFilled_eq_length_iff (l : List (Option Bytes)) :
    leadingFilled l = l.length ↔ ∀ d ∈ l, d.isSome = true := by
  induction l with
  | nil => simp [leadingFilled]
  | cons x xs ih =>
    cases x with
    | none =>
      simp only [leadingFilled, List.length_cons, List.mem_cons]
      constructor
      · intro h
        exact absurd h (by omega)
      · intro h
        have := h none (Or.inl rfl)
        simp at this
    | some b =>
      simp only [leadingFilled, List.length_cons, List.mem_cons]
      constructor
      · intro h d hd
        rcases hd with rfl | hd
        · rfl
        · exact (ih.mp (by omega)) d hd
      · intro h
        have := ih.mpr (fun d hd => h d (Or.inr hd))
        omega

/- ------------------------------------------------------------------ -/
/- Behaviour of the cursor-advancing loop.                             -/
/- ------------------------------------------------------------------ -/

theorem update_index_go_eq (l : List (Option Bytes)) (qty : Nat)
    (hq : l.length = qty) :
    ∀ fuel i, i ≤ leadingFilled l → leadingFilled l ≤ i + fuel →
      update_index_go l qty fuel i = leadingFilled l := by
  intro fuel
  induction fuel with
  | zero =>
    intro i h1 h2
    simp only [update_index_go]
    omega
  | succ fuel ih =>
    intro i h1 h2
    by_cases hi : i = leadingFilled l
    · simp only [update_index_go]
      rcases Nat.lt_or_ge (leadingFilled l) l.length with hlt | hge
      · have hcond : ¬ (i < qty ∧ (l.getD i none).isSome = true) := by
          intro hcon
          rw [hi, leadingFilled_stop l hlt] at hcon
          simp at hcon
        rw [if_neg hcond]
        exact hi
      · have heq : leadingFilled l = l.length :=
          le_antisymm (leadingFilled_le_length l) hge
        have hcond : ¬ (i < qty ∧ (l.getD i none).isSome = true) := by
          intro hcon
          obtain ⟨hc1, hc2⟩ := hcon
          omega
        rw [if_neg hcond]
        exact hi
    · have hlt : i < leadingFilled l := by omega
      have hil : i < l.length := by
        have := leadingFilled_le_length l
        omega
      simp only [update_index_go]
      rw [if_pos ⟨by omega, leadingFilled_isSome l i hlt⟩]
      exact ih (i + 1) (by omega) (by omega)

/- ------------------------------------------------------------------ -/
/- Python list indexing facts.                                         -/
/- ------------------------------------------------------------------ -/

theorem pyIndex_lt (n : Nat) (i : Int) (j : Nat) (h : pyIndex n i = some j) :
    j < n := by
  unfold pyIndex at h
  split at h
  · simp only [Option.some.injEq] at h
    omega
  · split at h
    · simp only [Option.some.injEq] at h
      omega
    · exact absurd h (by simp)

/- ------------------------------------------------------------------ -/
/- The accumulator invariant.                                          -/
/- ------------------------------------------------------------------ -/

/-- Invariant of every reachable accumulator: the slot list has exactly
`part_qty` entries (at most 10000 of them), and the cursor equals the
length of the contiguously filled prefix. -/
def EtagInv (st : DandiETag) : Prop :=
  st.md5_digests.length = st.part_gen.part_qty ∧
  st.part_gen.part_qty ≤ MAX_PARTS ∧
  st.next_index = leadingFilled st.md5_digests

theorem init_inv (s : Nat) (st : DandiETag) (h : DandiETag.init s = .ok st) :
    EtagInv st := by
  unfold DandiETag.init at h
  cases hg : PartGenerator.for_file_size s with
  | error e =>
    rw [hg] at h
    exact absurd h (by simp)
  | ok g =>
    rw [hg] at h
    simp only [Except.ok.injEq] at h
    subst h
    have hs : s ≤ tb 5 := by
      by_contra hs
      unfold PartGenerator.for_file_size at hg
      rw [if_pos (by omega)] at hg
      exact absurd hg (by simp)
    have hqty : g.part_qty ≤ MAX_PARTS := by
      rw [for_file_size_ok s hs] at hg
      simp only [Except.ok.injEq] at hg
      rw [← hg]
      exact plan_for_qty_le s hs
    refine ⟨List.length_replicate _ _, hqty, ?_⟩
    cases g.part_qty with
    | zero => rfl
    | succ k => rfl

theorem update_after_set_inv (st : DandiETag) (hinv : EtagInv st) (i : Nat)
    (d : Bytes) :
    EtagInv (DandiETag.update_index
      { st with md5_digests := st.md5_digests.set i (some d) }) := by
  obtain ⟨hlen, hqty, hnext⟩ := hinv
  have hlen' : (st.md5_digests.set i (some d)).length = st.part_gen.part_qty := by
    rw [List.length_set]
    exact hlen
  have hmono : leadingFilled st.md5_digests
      ≤ leadingFilled (st.md5_digests.set i (some d)) := by
    apply le_leadingFilled
    · rw [hlen', ← hlen]
      exact leadingFilled_le_length _
    · intro j hj
      by_cases hji : i = j
      · subst hji
        rw [getD_set_self]
        · rfl
        · have := leadingFilled_le_length st.md5_digests
          omega
      · rw [getD_set_ne _ _ _ _ _ hji]
        exact leadingFilled_isSome _ j hj
  have hub : leadingFilled (st.md5_digests.set i (some d))
      ≤ st.part_gen.part_qty := by
    rw [← hlen']
    exact leadingFilled_le_length _
  refine ⟨hlen', hqty, ?_⟩
  show update_index_go (st.md5_digests.set i (some d)) st.part_gen.part_qty
      (st.part_gen.part_qty - st.next_index) st.next_index
      = leadingFilled (st.md5_digests.set i (some d))
  apply update_index_go_eq _ _ hlen'
  · omega
  · have := leadingFilled_le_length st.md5_digests
    omega

theorem add_digest_inv (st : DandiETag) (p : Part) (d : Bytes)
    (hinv : EtagInv st) : EtagInv (st.add_digest p d).1 := by
  unfold DandiETag.add_digest
  split
  · exact hinv
  · split
    · exact hinv
    · exact update_after_set_inv st hinv _ d

theorem add_next_digest_inv (st : DandiETag) (d : Bytes)
    (hinv : EtagInv st) : EtagInv (st.add_next_digest d).1 := by
  unfold DandiETag.add_next_digest
  split
  · exact hinv
  · exact update_after_set_inv st hinv _ d

theorem update_op_inv (st : DandiETag) (H : Bytes → Bytes) (b : Bytes)
    (hinv : EtagInv st) : EtagInv (st.update H b).1 := by
  unfold DandiETag.update
  split
  · exact hinv
  · exact add_next_digest_inv st (H b) hinv

theorem reachable_inv (H : Bytes → Bytes) (st : DandiETag)
    (h : Reachable H st) : EtagInv st := by
  induction h with
  | base s st hok => exact init_inv s st hok
  | step_add st p d _ ih => exact add_digest_inv st p d ih
  | step_next st d _ ih => exact add_next_digest_inv st d ih
  | step_upd st b _ ih => exact update_op_inv st H b ih

/-- Fixed combining hash used by the concrete witnesses. -/
def constDigest : Bytes → Bytes := fun _ => List.replicate 16 0

/-- Claim C3: in every reachable accumulator state (rejected calls included),
`next_index` equals the number of contiguously filled slots counted from
slot 0, and `complete` holds exactly when every slot holds a digest. -/
theorem C3_cursor_invariant (H : Bytes → Bytes) (st : DandiETag)
    (h : Reachable H st) :
    st.next_index = leadingFilled st.md5_digests ∧
    (st.complete = true ↔ ∀ d ∈ st.md5_digests, d.isSome = true) := by
  obtain ⟨hlen, hqty, hnext⟩ := reachable_inv H st h
  refine ⟨hnext, ?_⟩
  unfold DandiETag.complete DandiETag.part_qty
  rw [beq_iff_eq, hnext, ← hlen]
  exact leadingFilled_eq_length_iff st.md5_digests

/-- Witness for C3 at the freshly constructed accumulator for size 5. -/
theorem C3_cursor_invariant_witness :
    DandiETag.init 5 = .ok ⟨⟨1, 5, 5⟩, [none], 0⟩ ∧
    ((⟨⟨1, 5, 5⟩, [none], 0⟩ : DandiETag).next_index
        = leadingFilled (⟨⟨1, 5, 5⟩, [none], 0⟩ : DandiETag).md5_digests ∧
      ((⟨⟨1, 5, 5⟩, [none], 0⟩ : DandiETag).complete = true ↔
        ∀ d ∈ (⟨⟨1, 5, 5⟩, [none], 0⟩ : DandiETag).md5_digests,
          d.isSome = true)) :=
  ⟨by decide,
    C3_cursor_invariant constDigest _ (Reachable.base 5 _ (by decide))⟩

/-- Claim C4: a second `add_digest` for a part whose slot is already filled
returns the conflict error — even when the submitted digest equals the
stored one — and returns the accumulator exactly as it was. -/
theorem C4_resubmission_conflict (st : DandiETag) (p : Part) (d d0 : Bytes)
    (j : Nat) (hj : pyIndex st.md5_digests.length (p.number - 1) = some j)
    (hfilled : st.md5_digests.getD j none = some d0) :
    st.add_digest p d = (st, some Err.digestResubmitted) := by
  unfold DandiETag.add_digest
  simp only [hj, hfilled, Option.isSome_some, if_true]

/-- Witness for C4: resubmitting the identical digest for part 1. -/
theorem C4_resubmission_conflict_witness :
    pyIndex ([some [7]] : List (Option Bytes)).length
        (Part.number ⟨1, 0, 5⟩ - 1) = some 0 ∧
    ([some [7]] : List (Option Bytes)).getD 0 none = some [7] ∧
    DandiETag.add_digest ⟨⟨1, 5, 5⟩, [some [7]], 1⟩ ⟨1, 0, 5⟩ [7]
      = (⟨⟨1, 5, 5⟩, [some [7]], 1⟩, some Err.digestResubmitted) :=
  ⟨by decide, by decide,
    C4_resubmission_conflict ⟨⟨1, 5, 5⟩, [some [7]], 1⟩ ⟨1, 0, 5⟩ [7] [7] 0
      (by decide) (by decide)⟩

/-- Claim C9: the accumulator built for file size 0 has zero digest slots, is
complete immediately at construction, and `as_str` succeeds, returning
the hex digest of the combining hash of the empty byte string followed
by "-0". -/
theorem C9_zero_size_accumulator (H : Bytes → Bytes) :
    DandiETag.init 0 = .ok ⟨⟨0, mb 64, mb 64⟩, [], 0⟩ ∧
    (⟨⟨0, mb 64, mb 64⟩, [], 0⟩ : DandiETag).md5_digests = [] ∧
    (⟨⟨0, mb 64, mb 64⟩, [], 0⟩ : DandiETag).complete = true ∧
    (⟨⟨0, mb 64, mb 64⟩, [], 0⟩ : DandiETag).as_str H
      = .ok (String.mk (hexChars (H []) ++ ['-', '0'])) := by
  refine ⟨by decide, rfl, by decide, ?_⟩
  rfl

/-- Claim C10: `add_digest` performs no part-number range validation — on an
accumulator whose last slot is empty, part number 0 resolves (via Python
negative indexing) to the last slot, the call succeeds, and the digest
lands in that last slot. -/
theorem C10_number_zero_hits_last_slot (st : DandiETag) (p : Part) (d : Bytes)
    (hp : p.number = 0) (hn : 1 ≤ st.md5_digests.length)
    (hempty : st.md5_digests.getD (st.md5_digests.length - 1) none = none) :
    (st.add_digest p d).2 = none ∧
    (st.add_digest p d).1.md5_digests
      = st.md5_digests.set (st.md5_digests.length - 1) (some d) := by
  have hpy : pyIndex st.md5_digests.length (p.number - 1)
      = some (st.md5_digests.length - 1) := by
    rw [hp]
    unfold pyIndex
    rw [if_neg (by omega), if_pos (by constructor <;> omega)]
    congr 1
  unfold DandiETag.add_digest
  simp only [hpy, hempty, Option.isSome_none, Bool.false_eq_true, if_false]
  exact ⟨by trivial, by trivial⟩

/-- Witness for C10 on a one-slot accumulator. -/
theorem C10_number_zero_hits_last_slot_witness :
    Part.number ⟨0, 0, 0⟩ = 0 ∧
    1 ≤ ((⟨⟨1, 5, 5⟩, [none], 0⟩ : DandiETag).md5_digests).length ∧
    ((⟨⟨1, 5, 5⟩, [none], 0⟩ : DandiETag).md5_digests).getD
        (((⟨⟨1, 5, 5⟩, [none], 0⟩ : DandiETag).md5_digests).length - 1) none
      = none ∧
    (((⟨⟨1, 5, 5⟩, [none], 0⟩ : DandiETag).add_digest ⟨0, 0, 0⟩ [9]).2 = none ∧
      ((⟨⟨1, 5, 5⟩, [none], 0⟩ : DandiETag).add_digest ⟨0, 0, 0⟩ [9]).1.md5_digests
        = ((⟨⟨1, 5, 5⟩, [none], 0⟩ : DandiETag).md5_digests).set
            (((⟨⟨1, 5, 5⟩, [none], 0⟩ : DandiETag).md5_digests).length - 1)
            (some [9])) :=
  ⟨rfl, by decide, by decide,
    C10_number_zero_hits_last_slot ⟨⟨1, 5, 5⟩, [none], 0⟩ ⟨0, 0, 0⟩ [9]
      rfl (by decide) (by decide)⟩

/- ------------------------------------------------------------------ -/
/- Output formatting: hex digits, decimal digits, the ETag regex.      -/
/- ------------------------------------------------------------------ -/

/-- `[0-9a-f]` on a single character. -/
def isHexDigitCh (c : Char) : Bool :=
  (decide (48 ≤ c.toNat) && decide (c.toNat ≤ 57))
    || (decide (97 ≤ c.toNat) && decide (c.toNat ≤ 102))

/-- `[0-9]` on a single character. -/
def isDigitCh (c : Char) : Bool :=
  decide (48 ≤ c.toNat) && decide (c.toNat ≤ 57)

/-- Full match of `DandiETag.REGEX`, i.e. `[0-9a-f]{32}-[0-9]{1,5}`. -/
def matchesEtagRe (s : String) : Bool :=
  decide ((s.data.take 32).length = 32) && (s.data.take 32).all isHexDigitCh
    && (match s.data.drop 32 with
        | [] => false
        | c :: ds =>
            (c == '-') && decide (1 ≤ ds.length) && decide (ds.length ≤ 5)
              && ds.all isDigitCh)

theorem hexChar_is_hex : ∀ n, n < 16 → isHexDigitCh (hexChar n) = true := by
  decide

theorem hexChars_length (bs : Bytes) : (hexChars bs).length = 2 * bs.length := by
  induction bs with
  | nil => rfl
  | cons b bs ih =>
    show (hexChar (b / 16) :: hexChar (b % 16) :: hexChars bs).length
        = 2 * (b :: bs).length
    simp only [List.length_cons, ih]
    omega

theorem hexChars_all_hex (bs : Bytes) (hb : ∀ x ∈ bs, x < 256) :
    (hexChars bs).all isHexDigitCh = true := by
  induction bs with
  | nil => rfl
  | cons b bs ih =>
    have hblt : b < 256 := hb b (List.mem_cons_self b bs)
    show (hexChar (b / 16) :: hexChar (b % 16) :: hexChars bs).all isHexDigitCh
        = true
    simp only [List.all_cons, Bool.and_eq_true]
    exact ⟨hexChar_is_hex _ (by omega), hexChar_is_hex _ (by omega),
      ih (fun x hx => hb x (List.mem_cons_of_mem b hx))⟩

theorem digitChar_is_digit : ∀ n, n < 10 →
    isDigitCh (Char.ofNat (48 + n)) = true := by
  decide

theorem natDigitsGo_all_digit :
    ∀ fuel n, (natDigitsGo fuel n).all isDigitCh = true := by
  intro fuel
  induction fuel with
  | zero =>
    intro n
    rfl
  | succ fuel ih =>
    intro n
    simp only [natDigitsGo]
    split
    · rename_i hn
      simp [digitChar_is_digit n hn]
    · rw [List.all_append]
      simp [ih (n / 10), digitChar_is_digit (n % 10) (Nat.mod_lt _ (by norm_num))]

theorem natDigitsGo_length_le :
    ∀ fuel k n, 1 ≤ k → n < 10 ^ k → (natDigitsGo fuel n).length ≤ k := by
  intro fuel
  induction fuel with
  | zero =>
    intro k n h1 h2
    simp [natDigitsGo]
  | succ fuel ih =>
    intro k n h1 h2
    simp only [natDigitsGo]
    split
    · simpa using h1
    · rename_i hn
      push_neg at hn
      have hk2 : 2 ≤ k := by
        by_contra hk
        have hk1 : k = 1 := by omega
        subst hk1
        have : (10 : Nat) ^ 1 = 10 := by norm_num
        omega
      have hdiv : n / 10 < 10 ^ (k - 1) := by
        rw [Nat.div_lt_iff_lt_mul (by norm_num)]
        have hpow : 10 ^ (k - 1) * 10 = 10 ^ k := by
          rw [← pow_succ]
          congr 1
          omega
        omega
      have hrec := ih (k - 1) (n / 10) (by omega) hdiv
      simp only [List.length_append, List.length_cons, List.length_nil]
      omega

theorem natDigits_all_digit (n : Nat) : (natDigits n).all isDigitCh = true :=
  natDigitsGo_all_digit (n + 1) n

theorem natDigits_length_pos (n : Nat) : 1 ≤ (natDigits n).length := by
  unfold natDigits
  simp only [natDigitsGo]
  split
  · simp
  · simp

theorem natDigits_length_le_five (n : Nat) (h : n ≤ 10000) :
    (natDigits n).length ≤ 5 := by
  unfold natDigits
  apply natDigitsGo_length_le (n + 1) 5 n (by omega)
  have : (10 : Nat) ^ 5 = 100000 := by norm_num
  omega

theorem any_isNone_false (l : List (Option Bytes))
    (hall : ∀ d ∈ l, d.isSome = true) :
    l.any (fun d => d.isNone) = false := by
  induction l with
  | nil => rfl
  | cons x xs ih =>
    simp only [List.any_cons, Bool.or_eq_false_iff]
    constructor
    · have hx := hall x (List.mem_cons_self x xs)
      cases x with
      | none => simp at hx
      | some b => rfl
    · exact ih (fun d hd => hall d (List.mem_cons_of_mem x hd))

theorem complete_as_str (H : Bytes → Bytes) (st : DandiETag)
    (hall : ∀ d ∈ st.md5_digests, d.isSome = true) (hc : st.complete = true) :
    st.as_str H = .ok (String.mk (hexChars (H (blobOf st.md5_digests))
      ++ '-' :: natDigits st.md5_digests.length)) := by
  unfold DandiETag.as_str
  rw [if_pos hc]
  rw [if_neg (by rw [any_isNone_false st.md5_digests hall]; simp)]

theorem etag_format (cs32 rest : List Char) (h32 : cs32.length = 32)
    (hhex : cs32.all isHexDigitCh = true) (hlen1 : 1 ≤ rest.length)
    (hlen5 : rest.length ≤ 5) (hdig : rest.all isDigitCh = true) :
    matchesEtagRe (String.mk (cs32 ++ '-' :: rest)) = true ∧
    (String.mk (cs32 ++ '-' :: rest)).length ≤ 38 := by
  constructor
  · unfold matchesEtagRe
    have hdata : (String.mk (cs32 ++ '-' :: rest)).data = cs32 ++ '-' :: rest := rfl
    rw [hdata, ← h32, List.take_left, List.drop_left]
    simp [h32, hhex, hlen1, hlen5, hdig]
  · show (cs32 ++ '-' :: rest).length ≤ 38
    simp only [List.length_append, List.length_cons]
    omega

/-- Claim C5: `as_str` raises exactly when the accumulator is not complete;
when complete it returns the lowercase hex digest of the combining hash
of the slot-ordered digest concatenation, a hyphen, and the decimal part
count — a string matching `[0-9a-f]{32}-[0-9]{1,5}` of length at most
38. -/
theorem C5_as_str_format (H : Bytes → Bytes)
    (hH : ∀ b : Bytes, (H b).length = 16 ∧ ∀ x ∈ H b, x < 256)
    (st : DandiETag) (hr : Reachable H st) :
    ((∃ e, st.as_str H = .error e) ↔ st.complete = false) ∧
    (st.complete = true →
      st.as_str H = .ok (String.mk (hexChars (H (blobOf st.md5_digests))
          ++ '-' :: natDigits st.md5_digests.length)) ∧
      ∀ out, st.as_str H = .ok out →
        matchesEtagRe out = true ∧ out.length ≤ 38) := by
  obtain ⟨hlen, hqty, hnext⟩ := reachable_inv H st hr
  have hmp : MAX_PARTS = 10000 := rfl
  by_cases hc : st.complete = true
  · have hall : ∀ d ∈ st.md5_digests, d.isSome = true := by
      have hqeq : st.next_index = st.part_gen.part_qty := by
        unfold DandiETag.complete DandiETag.part_qty at hc
        exact beq_iff_eq.mp hc
      apply (leadingFilled_eq_length_iff st.md5_digests).mp
      omega
    have hok := complete_as_str H st hall hc
    refine ⟨?_, fun _ => ⟨hok, ?_⟩⟩
    · rw [hc]
      constructor
      · rintro ⟨e, he⟩
        rw [hok] at he
        exact absurd he (by simp)
      · intro hfalse
        exact absurd hfalse (by simp)
    · intro out hout
      rw [hok] at hout
      simp only [Except.ok.injEq] at hout
      subst hout
      have h16 := (hH (blobOf st.md5_digests)).1
      have h256 := (hH (blobOf st.md5_digests)).2
      have h32 : (hexChars (H (blobOf st.md5_digests))).length = 32 := by
        rw [hexChars_length, h16]
      exact etag_format _ _ h32 (hexChars_all_hex _ h256)
        (natDigits_length_pos st.md5_digests.length)
        (natDigits_length_le_five _ (by omega))
        (natDigits_all_digit st.md5_digests.length)
  · have hcf : st.complete = false := by
      cases hcc : st.complete
      · rfl
      · exact absurd hcc hc
    have herr : st.as_str H = .error Err.notAllPartsSubmitted := by
      unfold DandiETag.as_str
      rw [if_neg (by rw [hcf]; simp)]
    refine ⟨?_, ?_⟩
    · rw [hcf]
      constructor
      · intro _
        rfl
      · intro _
        exact ⟨Err.notAllPartsSubmitted, herr⟩
    · intro hcon
      rw [hcf] at hcon
      exact absurd hcon (by simp)

theorem constDigest_spec :
    ∀ b : Bytes, (constDigest b).length = 16 ∧ ∀ x ∈ constDigest b, x < 256 := by
  intro b
  constructor
  · rfl
  · intro x hx
    have := List.eq_of_mem_replicate hx
    omega

/-- Witness for C5 at a completed one-part accumulator. -/
theorem C5_as_str_format_witness :
    ((∃ e, DandiETag.as_str
          ⟨⟨1, 5, 5⟩, [some (List.replicate 16 0)], 1⟩ constDigest = .error e)
        ↔ (⟨⟨1, 5, 5⟩, [some (List.replicate 16 0)], 1⟩ : DandiETag).complete
            = false) ∧
    ((⟨⟨1, 5, 5⟩, [some (List.replicate 16 0)], 1⟩ : DandiETag).complete = true →
      DandiETag.as_str ⟨⟨1, 5, 5⟩, [some (List.replicate 16 0)], 1⟩ constDigest
        = .ok (String.mk (hexChars (constDigest (blobOf
            (⟨⟨1, 5, 5⟩, [some (List.replicate 16 0)], 1⟩
              : DandiETag).md5_digests))
          ++ '-' :: natDigits (⟨⟨1, 5, 5⟩, [some (List.replicate 16 0)], 1⟩
              : DandiETag).md5_digests.length)) ∧
      ∀ out, DandiETag.as_str
          ⟨⟨1, 5, 5⟩, [some (List.replicate 16 0)], 1⟩ constDigest = .ok out →
        matchesEtagRe out = true ∧ out.length ≤ 38) :=
  C5_as_str_format constDigest constDigest_spec
    ⟨⟨1, 5, 5⟩, [some (List.replicate 16 0)], 1⟩
    (Reachable.step_next ⟨⟨1, 5, 5⟩, [none], 0⟩ (List.replicate 16 0)
      (Reachable.base 5 _ (by decide)))

/- ------------------------------------------------------------------ -/
/- Order independence of digest submission (C2).                       -/
/- ------------------------------------------------------------------ -/

/-- Submit one digest per listed part number, in order, through
`add_digest`; a raised error stops the run (exception propagation). -/
def submit_all (f : Nat → Bytes) : DandiETag → List Nat → DandiETag × Option Err
  | st, [] => (st, none)
  | st, n :: rest =>
      match st.add_digest ⟨(n : Int), 0, 0⟩ (f n) with
      | (st', none) => submit_all f st' rest
      | (st', some e) => (st', some e)

/-- The digest slots after submitting exactly the part numbers in `P`
(each part number `n` carrying digest `f n`). -/
def maskDigests (qty : Nat) (f : Nat → Bytes) (P : List Nat) :
    List (Option Bytes) :=
  (List.range qty).map (fun i => if (i + 1) ∈ P then some (f (i + 1)) else none)

/-- The full accumulator state after submitting exactly the parts in
`P`. -/
def maskState (g : PartGenerator) (f : Nat → Bytes) (P : List Nat) : DandiETag :=
  ⟨g, maskDigests g.part_qty f P, leadingFilled (maskDigests g.part_qty f P)⟩

theorem maskDigests_length (qty : Nat) (f : Nat → Bytes) (P : List Nat) :
    (maskDigests qty f P).length = qty := by
  unfold maskDigests
  rw [List.length_map, List.length_range]

theorem maskDigests_getElem (qty : Nat) (f : Nat → Bytes) (P : List Nat)
    (i : Nat) (h : i < (maskDigests qty f P).length) :
    (maskDigests qty f P)[i]
      = if (i + 1) ∈ P then some (f (i + 1)) else none := by
  simp [maskDigests]

theorem maskDigests_getD (qty : Nat) (f : Nat → Bytes) (P : List Nat)
    (i : Nat) (h : i < qty) :
    (maskDigests qty f P).getD i none
      = if (i + 1) ∈ P then some (f (i + 1)) else none := by
  have hl : i < (maskDigests qty f P).length := by
    rw [maskDigests_length]
    exact h
  rw [List.getD_eq_getElem _ _ hl]
  exact maskDigests_getElem qty f P i hl

theorem maskDigests_congr (qty : Nat) (f : Nat → Bytes) (P Q : List Nat)
    (h : ∀ n, n ∈ P ↔ n ∈ Q) : maskDigests qty f P = maskDigests qty f Q := by
  unfold maskDigests
  apply List.map_congr_left
  intro i _
  by_cases hp : (i + 1) ∈ P
  · rw [if_pos hp, if_pos ((h _).mp hp)]
  · rw [if_neg hp, if_neg (fun hq => hp ((h _).mpr hq))]

theorem maskState_congr (g : PartGenerator) (f : Nat → Bytes) (P Q : List Nat)
    (h : ∀ n, n ∈ P ↔ n ∈ Q) : maskState g f P = maskState g f Q := by
  unfold maskState
  rw [maskDigests_congr g.part_qty f P Q h]

theorem maskDigests_nil (qty : Nat) (f : Nat → Bytes) :
    maskDigests qty f [] = List.replicate qty none := by
  rw [List.eq_replicate_iff]
  constructor
  · exact maskDigests_length qty f []
  · intro b hb
    simp only [maskDigests, List.mem_map] at hb
    obtain ⟨i, _, hbi⟩ := hb
    simp at hbi
    exact hbi.symm

theorem leadingFilled_set_some (l : List (Option Bytes)) (i : Nat) (d : Bytes) :
    leadingFilled l ≤ leadingFilled (l.set i (some d)) := by
  apply le_leadingFilled
  · rw [List.length_set]
    exact leadingFilled_le_length l
  · intro j hj
    by_cases hji : i = j
    · subst hji
      rw [getD_set_self]
      · rfl
      · have := leadingFilled_le_length l
        omega
    · rw [getD_set_ne _ _ _ _ _ hji]
      exact leadingFilled_isSome l j hj

theorem add_digest_mask (g : PartGenerator) (f : Nat → Bytes) (P : List Nat)
    (n : Nat) (hn1 : 1 ≤ n) (hn2 : n ≤ g.part_qty) (hP : n ∉ P) :
    (maskState g f P).add_digest ⟨(n : Int), 0, 0⟩ (f n)
      = (maskState g f (n :: P), none) := by
  have hlen : (maskDigests g.part_qty f P).length = g.part_qty :=
    maskDigests_length _ _ _
  have hpy : pyIndex (maskDigests g.part_qty f P).length ((n : Int) - 1)
      = some (n - 1) := by
    rw [hlen]
    unfold pyIndex
    rw [if_pos (by constructor <;> omega)]
    congr 1
    omega
  have hget : (maskDigests g.part_qty f P).getD (n - 1) none = none := by
    rw [maskDigests_getD _ _ _ _ (by omega)]
    rw [if_neg (by rw [show n - 1 + 1 = n by omega]; exact hP)]
  have hset : (maskDigests g.part_qty f P).set (n - 1) (some (f n))
      = maskDigests g.part_qty f (n :: P) := by
    apply List.ext_getElem
    · rw [List.length_set, maskDigests_length, maskDigests_length]
    · intro i h1 h2
      have hi : i < (maskDigests g.part_qty f P).length := by
        rw [List.length_set] at h1
        exact h1
      simp only [List.getElem_set, maskDigests_getElem]
      by_cases hin : n - 1 = i
      · have hn : i + 1 = n := by omega
        rw [if_pos hin, hn, if_pos (List.mem_cons_self n P)]
      · have hne : i + 1 ≠ n := by omega
        rw [if_neg hin]
        by_cases hp : (i + 1) ∈ P
        · rw [if_pos hp, if_pos (List.mem_cons_of_mem n hp)]
        · rw [if_neg hp, if_neg (by
            intro hq
            rcases List.mem_cons.mp hq with h | h
            · exact hne h
            · exact hp h)]
  show DandiETag.add_digest
      ⟨g, maskDigests g.part_qty f P, leadingFilled (maskDigests g.part_qty f P)⟩
      ⟨(n : Int), 0, 0⟩ (f n)
    = (⟨g, maskDigests g.part_qty f (n :: P),
        leadingFilled (maskDigests g.part_qty f (n :: P))⟩, none)
  unfold DandiETag.add_digest
  simp only [hpy, hget, Option.isSome_none, Bool.false_eq_true, if_false]
  unfold DandiETag.update_index DandiETag.part_qty
  simp only [hset, Prod.mk.injEq, DandiETag.mk.injEq]
  refine ⟨⟨by trivial, by trivial, ?_⟩, by trivial⟩
  apply update_index_go_eq _ _ (maskDigests_length _ _ _)
  · rw [← hset]
    exact leadingFilled_set_some _ _ _
  · have h1 : leadingFilled (maskDigests g.part_qty f (n :: P)) ≤ g.part_qty := by
      have h := leadingFilled_le_length (maskDigests g.part_qty f (n :: P))
      rw [maskDigests_length] at h
      exact h
    have h2 : leadingFilled (maskDigests g.part_qty f P) ≤ g.part_qty := by
      have h := leadingFilled_le_length (maskDigests g.part_qty f P)
      rw [maskDigests_length] at h
      exact h
    omega

theorem submit_all_mask (g : PartGenerator) (f : Nat → Bytes) :
    ∀ (rest P : List Nat), (∀ n ∈ rest, n ∉ P) → rest.Nodup →
      (∀ n ∈ rest, 1 ≤ n ∧ n ≤ g.part_qty) →
      submit_all f (maskState g f P) rest
        = (maskState g f (rest ++ P), none) := by
  intro rest
  induction rest with
  | nil =>
    intro P _ _ _
    simp [submit_all]
  | cons n rest ih =>
    intro P hdisj hnodup hrange
    have hn := hrange n (List.mem_cons_self n rest)
    have hstep := add_digest_mask g f P n hn.1 hn.2
      (hdisj n (List.mem_cons_self n rest))
    simp only [submit_all, hstep]
    have hnr : n ∉ rest := (List.nodup_cons.mp hnodup).1
    have hih := ih (n :: P)
      (by
        intro m hm
        rw [List.mem_cons]
        rintro (rfl | hmp)
        · exact hnr hm
        · exact hdisj m (List.mem_cons_of_mem n hm) hmp)
      (List.nodup_cons.mp hnodup).2
      (fun m hm => hrange m (List.mem_cons_of_mem n hm))
    rw [hih]
    rw [maskState_congr g f (rest ++ n :: P) ((n :: rest) ++ P) (by
      intro m
      simp only [List.mem_append, List.mem_cons]
      tauto)]

/-- Claim C2: for a fixed plan and a fixed assignment of one digest per part
number, submitting all digests through `add_digest` in any permutation
of the part numbers succeeds and finalizes (`as_str`) to exactly the
same string as submitting them in ascending part-number order. -/
theorem C2_order_independence (s : Nat) (st0 : DandiETag)
    (h0 : DandiETag.init s = .ok st0) (f : Nat → Bytes) (o : List Nat)
    (ho : o.Perm (List.range' 1 st0.part_gen.part_qty)) (H : Bytes → Bytes) :
    (submit_all f st0 o).2 = none ∧
    (submit_all f st0 o).1.as_str H
      = (submit_all f st0 (List.range' 1 st0.part_gen.part_qty)).1.as_str H := by
  unfold DandiETag.init at h0
  cases hg : PartGenerator.for_file_size s with
  | error e =>
    rw [hg] at h0
    exact absurd h0 (by simp)
  | ok g =>
    rw [hg] at h0
    simp only [Except.ok.injEq] at h0
    subst h0
    have hmask : (⟨g, List.replicate g.part_qty none, 0⟩ : DandiETag)
        = maskState g f [] := by
      unfold maskState
      rw [maskDigests_nil]
      cases g.part_qty with
      | zero => rfl
      | succ k => rfl
    have hqty : (⟨g, List.replicate g.part_qty none, 0⟩
        : DandiETag).part_gen.part_qty = g.part_qty := rfl
    rw [hqty] at ho
    have hasc_nodup : (List.range' 1 g.part_qty).Nodup :=
      List.nodup_range' 1 g.part_qty
    have ho_nodup : o.Nodup := ho.nodup_iff.mpr hasc_nodup
    have ho_mem : ∀ m, m ∈ o ↔ m ∈ List.range' 1 g.part_qty :=
      fun m => ho.mem_iff
    have hbound : ∀ m ∈ List.range' 1 g.part_qty, 1 ≤ m ∧ m ≤ g.part_qty := by
      intro m hm
      rw [List.mem_range'_1] at hm
      omega
    have hrun_o := submit_all_mask g f o [] (by simp) ho_nodup
      (fun m hm => hbound m ((ho_mem m).mp hm))
    have hrun_asc := submit_all_mask g f (List.range' 1 g.part_qty) []
      (by simp) hasc_nodup hbound
    rw [hqty, hmask, hrun_o, hrun_asc]
    refine ⟨rfl, ?_⟩
    rw [maskState_congr g f (o ++ []) (List.range' 1 g.part_qty ++ []) (by
      intro m
      simp only [List.append_nil]
      exact ho_mem m)]

/-- Witness for C2 on a one-part plan with the singleton permutation. -/
theorem C2_order_independence_witness :
    DandiETag.init 5 = .ok ⟨⟨1, 5, 5⟩, [none], 0⟩ ∧
    ([1] : List Nat).Perm
      (List.range' 1 (⟨⟨1, 5, 5⟩, [none], 0⟩ : DandiETag).part_gen.part_qty) ∧
    ((submit_all (fun _ => [7]) ⟨⟨1, 5, 5⟩, [none], 0⟩ [1]).2 = none ∧
      (submit_all (fun _ => [7]) ⟨⟨1, 5, 5⟩, [none], 0⟩ [1]).1.as_str constDigest
        = (submit_all (fun _ => [7]) ⟨⟨1, 5, 5⟩, [none], 0⟩
            (List.range' 1
              (⟨⟨1, 5, 5⟩, [none], 0⟩ : DandiETag).part_gen.part_qty)).1.as_str
            constDigest) :=
  ⟨by decide, by decide,
    C2_order_independence 5 ⟨⟨1, 5, 5⟩, [none], 0⟩ (by decide) (fun _ => [7])
      [1] (by decide) constDigest⟩
